import Mathlib

/-!
Verification of the Bambara text-normalization library.

The development shallowly embeds the two algorithmic cores of the library:

* `numbers.py` — the bidirectional numeral/word converter
  (`_int_to_bambara`, `_float_to_bambara`, `_digits_to_bambara`,
  `_parse_bambara_int`, `_parse_decimal_digits`, `bambara_to_number`);
* `normalizer.py` — the contraction-disambiguation engine
  (`_expand_k_contraction`, `_predict_k_expansion`,
  `_expand_n_contraction`, `_get_lookahead_base`,
  `_strip_tones_and_punct`) and the normalization pipeline
  (`BambaraNormalizer.normalize`).

Phrases handed to the numeral parser are modelled as lists of
whitespace-free tokens (the Python code joins and splits such tokens with
single spaces; on token material that never embeds a space the string
operations of the source are reproduced exactly at this level, including
the character-level quirks: `startswith("ni")` on a joined remainder is a
*character* prefix test on the first token, and `_parse_decimal_digits`
splits its argument on the two-character *substring* "ni").
-/

namespace Bambara

/-! ### Vocabulary tables from `numbers.py` -/

/-- `UNITS` from `numbers.py`. -/
def UNITS : List String :=
  ["fu", "kelen", "fila", "saba", "naani", "duuru",
   "wɔɔrɔ", "wolonwula", "seegin", "kɔnɔntɔn"]

/-- `UNITS[n]` (indexing is always in range in the source). -/
def unitWord (n : Nat) : String := UNITS.getD n ""

/-- `TENS` from `numbers.py`, each entry given as its list of
whitespace-delimited tokens (`TENS[3] = "bi saba"` becomes
`["bi", "saba"]`). -/
def TENS : List (List String) :=
  [[], ["tan"], ["mugan"], ["bi", "saba"], ["bi", "naani"], ["bi", "duuru"],
   ["bi", "wɔɔrɔ"], ["bi", "wolonwula"], ["bi", "seegin"], ["bi", "kɔnɔntɔn"]]

/-- `UNIT_VALUES` from `numbers.py`: the units enumerated, plus the
spelling variants added by `UNIT_VALUES.update`. -/
def UNIT_VALUES : List (String × Nat) :=
  [("fu", 0), ("kelen", 1), ("fila", 2), ("saba", 3), ("naani", 4),
   ("duuru", 5), ("wɔɔrɔ", 6), ("wolonwula", 7), ("seegin", 8),
   ("kɔnɔntɔn", 9), ("kelenn", 1), ("segin", 8), ("kɔnɔtɔn", 9)]

/-- Dictionary lookup in `UNIT_VALUES`. -/
def lookupUnit (t : String) : Option Nat :=
  (UNIT_VALUES.find? (fun p => p.1 == t)).map (·.2)

/-- `TENS_VALUES` from `numbers.py`, in insertion order (Python dicts
preserve it, and `_parse_bambara_int` iterates over it); keys are token
lists. -/
def TENS_VALUES : List (List String × Nat) :=
  [(["tan"], 10), (["mugan"], 20), (["bi", "saba"], 30), (["bi", "naani"], 40),
   (["bi", "duuru"], 50), (["bi", "wɔɔrɔ"], 60), (["bi", "wolonwula"], 70),
   (["bi", "wolonfila"], 70), (["bi", "seegin"], 80), (["bi", "segin"], 80),
   (["bi", "kɔnɔntɔn"], 90), (["bi", "kɔnɔtɔn"], 90)]

/-- `MULTIPLIER_VALUES` from `numbers.py`. -/
def MULTIPLIER_VALUES : List (String × Nat) :=
  [("kɛmɛ", 100), ("keme", 100), ("waa", 1000), ("wa", 1000),
   ("milyɔn", 1000000), ("milyon", 1000000)]

/-- Dictionary lookup in `MULTIPLIER_VALUES`. -/
def lookupMult (t : String) : Option Nat :=
  (MULTIPLIER_VALUES.find? (fun p => p.1 == t)).map (·.2)

/-- Character-level `p.isPrefixOf s` (Python `s.startswith(p)`). -/
def strIsPrefix (p s : String) : Bool := p.data.isPrefixOf s.data

/-- Character-level `s[n:]` (Python slicing drops the first `n`
characters). -/
def strDrop (s : String) (n : Nat) : String := String.mk (s.data.drop n)

/-- `" ".join(tokens)`. -/
def joinSp (g : List String) : String := String.intercalate " " g

/-! ### `_int_to_bambara` -/

/-- `_digits_to_bambara` from `numbers.py` applied to `str(n)`:
every decimal digit of `n` spelled as its unit word. -/
def digits_to_bambara (n : Nat) : List String :=
  (Nat.toDigits 10 n).map (fun c => unitWord (c.toNat - 48))

/-- `_int_to_bambara` from `numbers.py` on non-negative input, producing
the list of whitespace-delimited tokens of the returned phrase.  Written
with a structural fuel parameter so that it evaluates by reduction; every
recursive call of the source is on a strictly smaller number, so the
fuel `n + 1` of the wrapper always suffices and the out-of-fuel branch is
unreachable. -/
def int_to_bambara_go (fuel : Nat) (n : Nat) : List String :=
  match fuel with
  | 0 => []
  | fuel + 1 =>
    if n = 0 then [unitWord 0]
    else if n < 10 then [unitWord n]
    else if n < 20 then
      let r := n % 10
      if r = 0 then ["tan"] else ["tan", "ni", unitWord r]
    else if n < 100 then
      let t := n / 10
      let r := n % 10
      let tw := TENS.getD t []
      if r = 0 then tw else tw ++ ["ni", unitWord r]
    else if n < 1000 then
      let h := n / 100
      let r := n % 100
      let pfx := if h = 1 then ["kɛmɛ"] else ["kɛmɛ", unitWord h]
      if r = 0 then pfx else pfx ++ ("ni" :: int_to_bambara_go fuel r)
    else if n < 1000000 then
      let t := n / 1000
      let r := n % 1000
      let pfx := "waa" :: int_to_bambara_go fuel t
      if r = 0 then pfx else pfx ++ ("ni" :: int_to_bambara_go fuel r)
    else if n < 1000000000 then
      let m := n / 1000000
      let r := n % 1000000
      let pfx := "miliyɔn" :: int_to_bambara_go fuel m
      if r = 0 then pfx else pfx ++ ("ni" :: int_to_bambara_go fuel r)
    else digits_to_bambara n

/-- `_int_to_bambara` with its always-sufficient fuel. -/
def int_to_bambara (n : Nat) : List String := int_to_bambara_go (n + 1) n

/-- `number_to_bambara` on an `int` argument (which dispatches to
`_int_to_bambara`), including the negative branch `kɔsɔn` + recurse. -/
def number_to_bambara (n : Int) : List String :=
  if n < 0 then "kɔsɔn" :: int_to_bambara n.natAbs
  else int_to_bambara n.toNat

/-- `_float_to_bambara` from `numbers.py`, with the decimal value given as
the integer part and the list of fractional digits of `str(n)`. -/
def float_to_bambara (i : Nat) (frac : List Nat) : List String :=
  int_to_bambara i ++ "tomi" :: frac.map unitWord

/-! ### `_parse_bambara_int`

`phrase.split(" ni ")`: on a phrase that is a single-space join of
whitespace-free tokens, an occurrence of the three-character separator
`" ni "` is exactly a token equal to `"ni"` that is neither at the start
of the current segment (no leading space available) nor the last token of
the segment (no trailing space available), scanned left to right. -/

/-- Worker for the `" ni "` split: `cur` is the reversed current group. -/
def splitNiGo (cur : List String) (ts : List String) : List (List String) :=
  match ts with
  | [] => [cur.reverse]
  | t :: rest =>
    if t == "ni" && !cur.isEmpty && !rest.isEmpty then
      cur.reverse :: splitNiGo [] rest
    else splitNiGo (t :: cur) rest

/-- `[p.strip() for p in phrase.split(" ni ") if p.strip()]` at token
level. -/
def splitNi (ts : List String) : List (List String) :=
  (splitNiGo [] ts).filter (fun g => !g.isEmpty)

/-- Total token count of a list of groups. -/
def sumLen (gs : List (List String)) : Nat := (gs.map List.length).sum

/-- `remainder.startswith("ni")` followed by
`remainder[len("ni"):].strip()`, where `remainder` is the single-space
join of `r`: a character-level prefix test on the first token, after
which the two characters `"ni"` are dropped (removing the whole first
token when it is exactly `"ni"`, because the leftover leading space is
stripped). -/
def stripNiRem (r : List String) : Option (List String) :=
  match r with
  | [] => none
  | h :: t =>
    if strIsPrefix "ni" h then
      let h2 := strDrop h 2
      some (if h2 == "" then t else h2 :: t)
    else none

/-- The `for tens_phrase, value in TENS_VALUES.items()` loop of
`_parse_bambara_int`: returns `(value, none)` on exact match,
`(value, some remainder)` on a prefix match whose remainder starts with
the connective, and otherwise moves on to the next key. -/
def tensScan (l : List (List String × Nat)) (ts : List String) :
    Option (Nat × Option (List String)) :=
  match l with
  | [] => none
  | (key, v) :: restKeys =>
    if ts == key then some (v, none)
    else if key.isPrefixOf ts && decide (key.length < ts.length) then
      match stripNiRem (ts.drop key.length) with
      | some r2 => some (v, some r2)
      | none => tensScan restKeys ts
    else tensScan restKeys ts

mutual

/-- `_parse_bambara_int` from `numbers.py`, over the whitespace-delimited
tokens of the phrase, with a structural fuel parameter (see
`parse_bambara_int` for the always-sufficient fuel: every recursive call
of the source strictly decreases the measure `2·length + 3` /
`2·sumLen + length + 1`, so the out-of-fuel branch is unreachable). -/
def parse_go (fuel : Nat) (ts : List String) : Except String Nat :=
  match fuel with
  | 0 => .error "recursion limit"
  | fuel + 1 =>
    if ts.isEmpty then .ok 0
    else
      match (match ts with | [t] => lookupUnit t | _ => none) with
      | some v => .ok v
      | none =>
        match tensScan TENS_VALUES ts with
        | some (v, none) => .ok v
        | some (v, some r2) => (parse_go fuel r2).map (v + ·)
        | none => sumGroups_go fuel (splitNi ts)

/-- The `for part in parts` accumulation loop of `_parse_bambara_int`
(the body evaluates one group and adds its value to the running total). -/
def sumGroups_go (fuel : Nat) (gs : List (List String)) : Except String Nat :=
  match fuel with
  | 0 => .error "recursion limit"
  | fuel + 1 =>
    match gs with
    | [] => .ok 0
    | g :: rest =>
      match g with
      | [] => sumGroups_go fuel rest
      | t0 :: gt =>
        match (if t0 == "bi" then
                 (match gt with | [u] => (lookupUnit u).map (· * 10) | _ => none)
               else none) with
        | some v => (sumGroups_go fuel rest).map (v + ·)
        | none =>
          match lookupMult t0 with
          | some m =>
            if gt.isEmpty then (sumGroups_go fuel rest).map (m + ·)
            else
              match parse_go fuel gt with
              | .error e => .error e
              | .ok sub => (sumGroups_go fuel rest).map (m * max sub 1 + ·)
          | none =>
            if t0 == "waa" then
              if gt.isEmpty then (sumGroups_go fuel rest).map (1000 + ·)
              else
                match parse_go fuel gt with
                | .error e => .error e
                | .ok sub => (sumGroups_go fuel rest).map (1000 * max sub 1 + ·)
            else if t0 == "milyɔn" || t0 == "milyon" then
              if gt.isEmpty then (sumGroups_go fuel rest).map (1000000 + ·)
              else
                match parse_go fuel gt with
                | .error e => .error e
                | .ok sub => (sumGroups_go fuel rest).map (1000000 * max sub 1 + ·)
            else
              match (TENS_VALUES.find? (fun p => p.1 == g)).map (·.2) with
              | some v => (sumGroups_go fuel rest).map (v + ·)
              | none =>
                match (match g with | [u] => lookupUnit u | _ => none) with
                | some v => (sumGroups_go fuel rest).map (v + ·)
                | none =>
                  match lookupUnit t0 with
                  | some v => (sumGroups_go fuel rest).map (v + ·)
                  | none => .error ("Cannot parse: \x27" ++ joinSp g ++ "\x27")

end

/-- `_parse_bambara_int` with its always-sufficient fuel. -/
def parse_bambara_int (ts : List String) : Except String Nat :=
  parse_go (2 * ts.length + 3) ts

/-! ### `bambara_to_number` and the decimal path -/

/-- `str.lower()` on the characters that occur in this development
(ASCII letters plus the Bambara and variant letters used by the library;
all other characters are fixed points of `lower` on this material). -/
def pyLowerChar (c : Char) : Char :=
  if 'A' ≤ c && c ≤ 'Z' then Char.ofNat (c.toNat + 32)
  else if c = 'Ɛ' then 'ɛ'
  else if c = 'Ɔ' then 'ɔ'
  else if c = 'Ɲ' then 'ɲ'
  else if c = 'Ŋ' then 'ŋ'
  else if c = 'È' then 'è'
  else if c = 'É' then 'é'
  else if c = 'Ê' then 'ê'
  else if c = 'Ò' then 'ò'
  else if c = 'Ô' then 'ô'
  else if c = 'Ñ' then 'ñ'
  else if c = 'Ε' then 'ε'
  else if c = 'Э' then 'э'
  else if c = 'Є' then 'є'
  else if c = 'À' then 'à'
  else if c = 'Á' then 'á'
  else c

/-- `str.lower()` over a token. -/
def pyLower (s : String) : String := String.mk (s.data.map pyLowerChar)

/-- Split a character list at every character satisfying `p`, keeping
empty pieces (Python `re`-free `str.split(sep)` behaviour for a
one-character separator class). -/
def splitCharsP (p : Char → Bool) : List Char → List (List Char)
  | [] => [[]]
  | c :: rest =>
    match splitCharsP p rest with
    | [] => if p c then [[], []] else [[c]]
    | g :: gs => if p c then [] :: g :: gs else (c :: g) :: gs

/-- `str.split()` (split on whitespace, dropping empty pieces). -/
def splitWs (s : String) : List String :=
  ((splitCharsP Char.isWhitespace s.data).map (fun cs => String.mk cs)).filter
    (fun x => x ≠ "")

/-- `str.strip()`. -/
def pyStrip (s : String) : String :=
  String.mk (((s.data.dropWhile Char.isWhitespace).reverse.dropWhile
    Char.isWhitespace).reverse)

/-- `phrase.split("ni")`: split on every non-overlapping occurrence of
the two-character *substring* `"ni"`, leftmost first (Python
`str.split(sep)` semantics). -/
def splitOnNi : List Char → List (List Char)
  | 'n' :: 'i' :: rest => [] :: splitOnNi rest
  | c :: rest =>
    match splitOnNi rest with
    | [] => [[c]]
    | g :: gs => (c :: g) :: gs
  | [] => [[]]

/-- `_parse_decimal_digits` from `numbers.py`.  This works at character
level on the fractional phrase because the source splits on the
two-character *substring* `"ni"` (`phrase.split(CONNECTOR)`), which can
fire inside a token (e.g. inside `"naani"`). -/
def parse_decimal_digits (s : String) : String :=
  let parts :=
    (((splitOnNi s.data).map (fun cs => String.mk cs)).map pyStrip).filter
      (fun p => p ≠ "")
  let digits :=
    (parts.map (fun part =>
      (splitWs part).filterMap (fun tok => (lookupUnit tok).map toString))).flatten
  let d := String.join digits
  if d = "" then "0" else d

/-- Result of `bambara_to_number`: a Python `int`, or the Python `float`
built by `float(f"{int_val}.{dec_val}")`, recorded as the integer part
paired with the fractional digit string. -/
inductive PyNumber where
  | intVal (n : Nat)
  | floatVal (intPart : Nat) (fracDigits : String)
deriving DecidableEq, Repr

/-- `bambara_to_number` from `numbers.py`, over the whitespace-delimited
tokens of the phrase.  The `DECIMAL_SEP in phrase` substring test and the
`phrase.split(sep)` split are the token-level ones (the separator word
never occurs inside another token of the numeral vocabulary). -/
def bambara_to_number (ts0 : List String) : Except String PyNumber :=
  let ts := ts0.map pyLower
  if ts.contains "tomi" then
    let parts := ts.splitOn "tomi"
    if parts.length = 2 then
      let ip := parts.getD 0 []
      let dp := parts.getD 1 []
      match (if ip.isEmpty then Except.ok 0 else parse_bambara_int ip) with
      | .error e => .error e
      | .ok iv =>
        let dv := if dp.isEmpty then "0" else parse_decimal_digits (joinSp dp)
        .ok (.floatVal iv dv)
    else (parse_bambara_int ts).map .intVal
  else (parse_bambara_int ts).map .intVal

deriving instance DecidableEq for Except

/-- A token carrying recognizable numeral vocabulary: one that some
branch of the group evaluation of `_parse_bambara_int` can consume
(unit words and their variants, the tens words, the `bi` compound
marker, and the multiplier words). -/
def recognizedNumToken (t : String) : Bool :=
  (lookupUnit t).isSome || t == "bi" || (lookupMult t).isSome ||
  t == "waa" || t == "milyɔn" || t == "milyon" || t == "tan" || t == "mugan"

/-- A non-empty group none of whose tokens is recognizable numeral
vocabulary. -/
def badGroup (g : List String) : Bool :=
  !g.isEmpty && g.all (fun t => !recognizedNumToken t)

/-! ### Character tables from `normalizer.py` and `utils.py`

The character-level passes are modelled over the character material the
library is written for: the Bambara alphabet with its special letters,
ASCII letters/digits/punctuation, the apostrophe variants, the legacy and
Cyrillic/Greek look-alikes, and the precomposed accented vowels together
with the five tone-mark combining codepoints.  On this material the
`unicodedata` NFC/NFD calls and category tests of the source are
reproduced exactly; characters outside it pass through unchanged exactly
as unknown characters do in the source. -/

/-- `TONE_DIACRITICS` from `normalizer.py` (grave, acute, caron,
circumflex, macron). -/
def TONE_DIACRITICS : List Char :=
  ['̀', '́', '̌', '̂', '̄']

/-- `APOSTROPHE_VARIANTS` from `normalizer.py`. -/
def APOSTROPHE_VARIANTS : List Char :=
  ['\x27', '’', 'ʼ', '‘', '`', '´', '′',
   '＇', 'ʹ', 'ʻ']

/-- The characters of Unicode categories `Po Ps Pe Pi Pf Pd Pc`
(`PUNCTUATION_CATEGORIES` in `normalizer.py`) within the modelled
material: the ASCII punctuation of those categories plus the common
general-punctuation marks. -/
def punctCatChars : List Char :=
  ['!', '"', '#', '%', '&', '\x27', '(', ')', '*', ',', '-', '.', '/',
   ':', ';', '?', '@', '[', '\\', ']', '_', '\x7b', '\x7d',
   '¡', '«', '»', '¿', '‘', '’',
   '–', '—', '…']

/-- Membership in the modelled punctuation categories. -/
def isPunctCat (c : Char) : Bool := punctCatChars.contains c

/-- Canonical decomposition (NFD) of one character on the modelled
material: the precomposed Latin letters used by Bambara transcripts
decompose into base letter + combining mark; everything else is its own
decomposition. -/
def nfdChar (c : Char) : List Char :=
  if c = 'à' then ['a', '̀'] else if c = 'á' then ['a', '́']
  else if c = 'â' then ['a', '̂'] else if c = 'ǎ' then ['a', '̌']
  else if c = 'ā' then ['a', '̄']
  else if c = 'è' then ['e', '̀'] else if c = 'é' then ['e', '́']
  else if c = 'ê' then ['e', '̂'] else if c = 'ě' then ['e', '̌']
  else if c = 'ē' then ['e', '̄']
  else if c = 'ì' then ['i', '̀'] else if c = 'í' then ['i', '́']
  else if c = 'î' then ['i', '̂'] else if c = 'ǐ' then ['i', '̌']
  else if c = 'ī' then ['i', '̄']
  else if c = 'ò' then ['o', '̀'] else if c = 'ó' then ['o', '́']
  else if c = 'ô' then ['o', '̂'] else if c = 'ǒ' then ['o', '̌']
  else if c = 'ō' then ['o', '̄']
  else if c = 'ù' then ['u', '̀'] else if c = 'ú' then ['u', '́']
  else if c = 'û' then ['u', '̂'] else if c = 'ǔ' then ['u', '̌']
  else if c = 'ū' then ['u', '̄']
  else if c = 'ǹ' then ['n', '̀'] else if c = 'ń' then ['n', '́']
  else [c]

/-- `unicodedata.normalize("NFD", ·)` on the modelled material. -/
def nfd (cs : List Char) : List Char := (cs.map nfdChar).flatten

/-- Inverse of `nfdChar` on base-letter/combining-mark pairs. -/
def composeChar (a m : Char) : Option Char :=
  if a = 'a' then
    if m = '̀' then some 'à' else if m = '́' then some 'á'
    else if m = '̂' then some 'â' else if m = '̌' then some 'ǎ'
    else if m = '̄' then some 'ā' else none
  else if a = 'e' then
    if m = '̀' then some 'è' else if m = '́' then some 'é'
    else if m = '̂' then some 'ê' else if m = '̌' then some 'ě'
    else if m = '̄' then some 'ē' else none
  else if a = 'i' then
    if m = '̀' then some 'ì' else if m = '́' then some 'í'
    else if m = '̂' then some 'î' else if m = '̌' then some 'ǐ'
    else if m = '̄' then some 'ī' else none
  else if a = 'o' then
    if m = '̀' then some 'ò' else if m = '́' then some 'ó'
    else if m = '̂' then some 'ô' else if m = '̌' then some 'ǒ'
    else if m = '̄' then some 'ō' else none
  else if a = 'u' then
    if m = '̀' then some 'ù' else if m = '́' then some 'ú'
    else if m = '̂' then some 'û' else if m = '̌' then some 'ǔ'
    else if m = '̄' then some 'ū' else none
  else if a = 'n' then
    if m = '̀' then some 'ǹ' else if m = '́' then some 'ń'
    else none
  else none

/-- `unicodedata.normalize("NFC", ·)` on the modelled material. -/
def nfc : List Char → List Char
  | [] => []
  | [c] => [c]
  | a :: b :: rest =>
    match composeChar a b with
    | some c => c :: nfc rest
    | none => a :: nfc (b :: rest)

/-- Combining marks (`Mn` category) within the modelled material. -/
def combiningMarks : List Char :=
  TONE_DIACRITICS ++ ['̃', '̈', '̧']

/-- `BambaraNormalizer._strip_tones_and_punct` from `normalizer.py`:
NFD, remove tone marks, NFC, remove punctuation-category characters
(this removes apostrophes, which are category `Po`). -/
def strip_tones_and_punct (w : String) : String :=
  let d := (nfd w.data).filter (fun c => !TONE_DIACRITICS.contains c)
  String.mk ((nfc d).filter (fun c => !isPunctCat c))

/-- The folded form used for lookahead at positions `i+2`/`i+3`:
`self._strip_tones_and_punct(word.lower())`. -/
def lookahead_fold (w : String) : String := strip_tones_and_punct (pyLower w)

/-! ### The contraction engine of `normalizer.py` -/

/-- `KE_POSTPOSITIONS` from `normalizer.py`. -/
def KE_POSTPOSITIONS : List String :=
  ["la", "ye", "fɛ", "kɔnɔ", "kɔ", "kɔrɔ", "da", "daa", "kun",
   "ɲɛ", "ɲɛɛ", "ɲɛfɛ", "bolo", "sɛmɛ", "cɛ", "cɛma", "kɔfɛ",
   "kosɔn", "kama"]

/-- `REPORTED_SPEECH_MARKERS` from `normalizer.py`. -/
def REPORTED_SPEECH_MARKERS : List String :=
  ["ko", "ka", "kana", "tɛ", "te", "bɛ", "be", "bɛna", "bena",
   "tɛna", "tena", "tun", "mana"]

/-- `CLAUSE_MARKERS` from `normalizer.py`. -/
def CLAUSE_MARKERS : List String :=
  ["ka", "kana", "tɛ", "te", "bɛ", "be", "bɛna", "bena",
   "tɛna", "tena", "tun", "mana", "yɛrɛ", "de", "dɛ"]

/-- `SIMPLE_CONTRACTIONS` from `normalizer.py` (note the trailing space
in each expansion). -/
def SIMPLE_CONTRACTIONS : List (String × String) :=
  [("b\x27", "bɛ "), ("t\x27", "tɛ "), ("y\x27", "ye "), ("m\x27", "ma "),
   ("s\x27", "sa ")]

/-- `EXTENDED_CONTRACTIONS` from `normalizer.py`, in insertion order. -/
def EXTENDED_CONTRACTIONS : List (String × String) :=
  [("b\x27a", "bɛ a"), ("t\x27a", "tɛ a"), ("y\x27a", "ye a"),
   ("b\x27i", "bɛ i"), ("t\x27i", "tɛ i"), ("y\x27i", "ye i"),
   ("b\x27o", "bɛ o"), ("t\x27o", "tɛ o"), ("y\x27o", "ye o"),
   ("y\x27u", "ye u"), ("b\x27u", "bɛ u"), ("t\x27u", "tɛ u")]

/-- `CONTRACTION_EXPANSIONS` from `normalizer.py` (lookahead table). -/
def CONTRACTION_EXPANSIONS : List (String × String) :=
  [("b\x27", "bɛ"), ("t\x27", "tɛ"), ("y\x27", "ye"), ("m\x27", "ma"),
   ("s\x27", "sa")]

/-- The vowels of the regex class `[aeiouɛɔ]`. -/
def kVowels : List Char := ['a', 'e', 'i', 'o', 'u', 'ɛ', 'ɔ']

/-- The vowel class under `re.IGNORECASE`. -/
def isKVowel (c : Char) : Bool := kVowels.contains (pyLowerChar c)

/-- `\w` of the source regexes on the modelled material: ASCII
alphanumerics, underscore, the Bambara special letters, and the accented
or variant letters the library handles. -/
def isWordChar (c : Char) : Bool :=
  c.isAlpha || c.isDigit || c == '_' ||
  ['ɛ', 'ɔ', 'ɲ', 'ŋ', 'Ɛ', 'Ɔ', 'Ɲ', 'Ŋ', 'è', 'é', 'ê', 'ò', 'ó', 'ô',
   'à', 'á', 'ù', 'ú', 'ì', 'í', 'ñ', 'ε', 'э', 'є'].contains c

/-- `re.match(r"k\x27([aeiouɛɔ]\w*)", word, re.IGNORECASE)`: the matched
stem (group 1), or `none` when the token is not a `k\x27`-contraction. -/
def kMatchStem (w : String) : Option String :=
  match w.data with
  | k :: ap :: v :: rest =>
    if pyLowerChar k == 'k' && ap == '\x27' && isKVowel v then
      some (String.mk (v :: rest.takeWhile isWordChar))
    else none
  | _ => none

/-- `re.match(r"n\x27([aeiouɛɔ]\w*)", word, re.IGNORECASE)`. -/
def nMatchStem (w : String) : Option String :=
  match w.data with
  | n :: ap :: v :: rest =>
    if pyLowerChar n == 'n' && ap == '\x27' && isKVowel v then
      some (String.mk (v :: rest.takeWhile isWordChar))
    else none
  | _ => none

/-- `re.match(r"k\x27[aeiouɛɔ]", word_lower)` on an already-lowercased
word (the test inside `_get_lookahead_base`). -/
def kPrefixLower (wl : String) : Bool :=
  match wl.data with
  | 'k' :: '\x27' :: v :: _ => kVowels.contains v
  | _ => false

/-- `BambaraNormalizer._get_lookahead_base` from `normalizer.py`:
`none` signals a `k\x27` contraction that needs recursive prediction;
otherwise the base form of the word for lookahead (an unambiguous contraction
expanded, or the folded word). -/
def get_lookahead_base (w : String) : Option String :=
  let wl := pyLower w
  if kPrefixLower wl then none
  else
    match (CONTRACTION_EXPANSIONS.find? (fun p => strIsPrefix p.1 wl)).map
        (·.2) with
    | some e => some e
    | none => some (strip_tones_and_punct wl)

/-- `BambaraNormalizer._predict_k_expansion` from `normalizer.py`, over
the suffix of the token list starting at the examined position. -/
def predict_k_expansion : List String → String
  | [] => "ka"
  | w :: rest =>
    if (kMatchStem w).isSome then
      match rest with
      | [] => "ka"
      | n1 :: rest2 =>
        match get_lookahead_base n1 with
        | none => if predict_k_expansion rest = "ka" then "ko" else "ka"
        | some nb =>
          if KE_POSTPOSITIONS.contains nb then "kɛ"
          else if CLAUSE_MARKERS.contains nb then "ko"
          else if nb = "ma" then
            match rest2 with
            | [] => "kɛ"
            | a :: rest3 =>
              let ab := lookahead_fold a
              match rest3 with
              | [] =>
                if REPORTED_SPEECH_MARKERS.contains ab then "ko" else "kɛ"
              | b :: _ =>
                if lookahead_fold b = "ye" then "kɛ"
                else if REPORTED_SPEECH_MARKERS.contains ab then "ko"
                else "kɛ"
          else "ka"
    else "ka"

/-- The loop body of `BambaraNormalizer._expand_k_contraction` for the
token `w` with the remaining tokens `rest` after it (the loop always
advances by one token; a matched token is replaced by the two-token
expansion, discarding any trailing non-word characters of the match). -/
def expand_k_word (w : String) (rest : List String) : String :=
  match kMatchStem w with
  | none => w
  | some stem =>
    match rest with
    | [] => "ka " ++ stem
    | n1 :: rest2 =>
      match get_lookahead_base n1 with
      | none =>
        if predict_k_expansion (n1 :: rest2) = "ka" then "ko " ++ stem
        else "ka " ++ stem
      | some nb =>
        if nb = "ma" then
          match rest2 with
          | [] => "kɛ " ++ stem
          | a :: rest3 =>
            let ab := lookahead_fold a
            match rest3 with
            | [] =>
              if REPORTED_SPEECH_MARKERS.contains ab then "ko " ++ stem
              else "kɛ " ++ stem
            | b :: _ =>
              if lookahead_fold b = "ye" then "kɛ " ++ stem
              else if REPORTED_SPEECH_MARKERS.contains ab then "ko " ++ stem
              else "kɛ " ++ stem
        else if KE_POSTPOSITIONS.contains nb then "kɛ " ++ stem
        else if CLAUSE_MARKERS.contains nb then "ko " ++ stem
        else "ka " ++ stem

/-- The whole `while` loop of `_expand_k_contraction` over the split
token list. -/
def expand_k_tokens : List String → List String
  | [] => []
  | w :: rest => expand_k_word w rest :: expand_k_tokens rest

/-- The loop body of `BambaraNormalizer._expand_n_contraction`. -/
def expand_n_word (w : String) (rest : List String) : String :=
  match nMatchStem w with
  | none => w
  | some stem =>
    match rest with
    | [] => "ni " ++ stem
    | n1 :: _ =>
      if lookahead_fold n1 = "ma" then "na " ++ stem else "ni " ++ stem

/-- The whole loop of `_expand_n_contraction`. -/
def expand_n_tokens : List String → List String
  | [] => []
  | w :: rest => expand_n_word w rest :: expand_n_tokens rest

/-- Case-insensitive prefix test for the `re.IGNORECASE`-compiled
literal patterns of the contraction substitutions (the patterns are
lowercase ASCII + apostrophe). -/
def ciIsPrefix (pat cs : List Char) : Bool :=
  decide (pat.length ≤ cs.length) &&
    (pat.zip cs).all (fun pc => pc.1 == pyLowerChar pc.2)

/-- Left-to-right non-overlapping replacement of every (case-insensitive)
occurrence of `pat` by `repl` (the behaviour of
`re.compile(re.escape(pat), re.IGNORECASE).sub(repl, ·)`); fuelled by the
text length, which every step consumes. -/
def ciReplaceGo (pat repl : List Char) : Nat → List Char → List Char
  | 0, cs => cs
  | _ + 1, [] => []
  | fuel + 1, c :: rest =>
    if ciIsPrefix pat (c :: rest) then
      repl ++ ciReplaceGo pat repl fuel ((c :: rest).drop pat.length)
    else c :: ciReplaceGo pat repl fuel rest

/-- `pattern.sub(expanded, text)` for one contraction pair. -/
def ciReplace (pat repl : String) (s : String) : String :=
  String.mk (ciReplaceGo pat.data repl.data s.data.length s.data)

/-- `BambaraNormalizer._expand_contractions` from `normalizer.py`:
`k\x27` pass, then `n\x27` pass, then the extended and simple
substitution loops. -/
def expand_contractions (text : String) : String :=
  let t1 := joinSp (expand_k_tokens (splitWs text))
  let t2 := joinSp (expand_n_tokens (splitWs t1))
  let t3 := EXTENDED_CONTRACTIONS.foldl (fun acc p => ciReplace p.1 p.2 acc) t2
  SIMPLE_CONTRACTIONS.foldl (fun acc p => ciReplace p.1 p.2 acc) t3

/-! ### Contract mode and the pipeline -/

/-- `BAMBARA_VOWELS` from `utils.py`. -/
def BAMBARA_VOWELS : List Char := ['a', 'e', 'i', 'o', 'u', 'ɛ', 'ɔ']

/-- `CONTRACTION_MAP` from `utils.py` (expanded form → elision prefix). -/
def CONTRACTION_MAP : List (String × String) :=
  [("bɛ", "b\x27"), ("tɛ", "t\x27"), ("ye", "y\x27"), ("ni", "n\x27"),
   ("na", "n\x27"), ("ka", "k\x27"), ("kɛ", "k\x27"), ("ko", "k\x27"),
   ("ma", "m\x27"), ("sa", "s\x27")]

/-- Whether a folded token starts with a Bambara vowel. -/
def startsWithVowel (s : String) : Bool :=
  match s.data with
  | c :: _ => BAMBARA_VOWELS.contains c
  | [] => false

/-- Modelled from the spec: the contract-mode scan of the contraction
engine.  The implementation of contract mode is absent from
`normalizer.py` in the source tree (`normalize` only has the expand
branch; only the tests and the `CONTRACTION_MAP` table of `utils.py`
witness it), so this definition follows the words of the spec: scan the
tokens left to right; for each token whose folded form keys the
expansion→prefix table and whose next token's folded form starts with a
vowel, merge the pair into `<prefix><next-token>` and advance two
tokens; otherwise emit the token unchanged and advance one. -/
def contract_tokens : List String → List String
  | [] => []
  | [w] => [w]
  | w :: next :: rest =>
    match (CONTRACTION_MAP.find? (fun p => p.1 == lookahead_fold w)).map
        (·.2) with
    | some pfx =>
      if startsWithVowel (lookahead_fold next) then
        (pfx ++ next) :: contract_tokens rest
      else w :: contract_tokens (next :: rest)
    | none => w :: contract_tokens (next :: rest)

/-- `BambaraNormalizerConfig` from `config.py` (the fields the
`normalize` pipeline reads). -/
structure NormalizerConfig where
  contraction_mode : String := "expand"
  preserve_tones : Bool := true
  normalize_legacy_orthography : Bool := true
  lowercase : Bool := true
  remove_punctuation : Bool := true
  normalize_whitespace : Bool := true
  normalize_apostrophes : Bool := true
  normalize_special_chars : Bool := true
  expand_numbers : Bool := false
  expand_dates : Bool := false
  expand_times : Bool := false
  expand_measurements : Bool := false
  remove_diacritics_except_tones : Bool := false
  handle_french_loanwords : Bool := true
  strip_repetitions : Bool := false
  normalize_compounds : Bool := false

/-- The `expand_contractions` property of the config:
`contraction_mode == "expand"`. -/
def NormalizerConfig.expandContractions (cfg : NormalizerConfig) : Bool :=
  cfg.contraction_mode == "expand"

/-- `BambaraNormalizerConfig()` with all defaults. -/
def defaultConfig : NormalizerConfig := {}

/-- `BambaraNormalizer._normalize_apostrophes`. -/
def normalize_apostrophes (s : String) : String :=
  String.mk (s.data.map (fun c =>
    if APOSTROPHE_VARIANTS.contains c then '\x27' else c))

/-- Case-sensitive `str.replace(pat, repl)` (leftmost, non-overlapping),
fuelled by the text length. -/
def csReplaceGo (pat repl : List Char) : Nat → List Char → List Char
  | 0, cs => cs
  | _ + 1, [] => []
  | fuel + 1, c :: rest =>
    if pat.isPrefixOf (c :: rest) then
      repl ++ csReplaceGo pat repl fuel ((c :: rest).drop pat.length)
    else c :: csReplaceGo pat repl fuel rest

/-- `str.replace`. -/
def strReplace (s pat repl : String) : String :=
  String.mk (csReplaceGo pat.data repl.data s.data.length s.data)

/-- `LEGACY_DIGRAPHS` from `normalizer.py`, in insertion order. -/
def LEGACY_DIGRAPHS : List (String × String) :=
  [("ny", "ɲ"), ("Ny", "Ɲ"), ("NY", "Ɲ"), ("ng", "ŋ"), ("Ng", "Ŋ"),
   ("NG", "Ŋ")]

/-- `LEGACY_ORTHOGRAPHY` from `normalizer.py`, in insertion order. -/
def LEGACY_ORTHOGRAPHY : List (String × String) :=
  [("è", "ɛ"), ("È", "Ɛ"), ("ò", "ɔ"), ("Ò", "Ɔ"), ("ê", "ɛ"), ("Ê", "Ɛ"),
   ("ô", "ɔ"), ("Ô", "Ɔ"), ("ε", "ɛ"), ("э", "ɛ")]

/-- `SENEGALESE_VARIANTS` from `normalizer.py`. -/
def SENEGALESE_VARIANTS : List (String × String) :=
  [("ñ", "ɲ"), ("Ñ", "Ɲ")]

/-- `BambaraNormalizer._normalize_legacy_orthography`. -/
def normalize_legacy_orthography (s : String) : String :=
  let t := LEGACY_DIGRAPHS.foldl (fun acc p => strReplace acc p.1 p.2) s
  let t := LEGACY_ORTHOGRAPHY.foldl (fun acc p => strReplace acc p.1 p.2) t
  SENEGALESE_VARIANTS.foldl (fun acc p => strReplace acc p.1 p.2) t

/-- `BambaraNormalizer._normalize_special_chars`. -/
def normalize_special_chars (s : String) : String :=
  String.mk (s.data.map (fun c =>
    if ['ε', 'Є', 'є'].contains c then 'ɛ'
    else if ['Ε', 'Э', 'э'].contains c then 'Ɛ'
    else c))

/-- `BambaraNormalizer._remove_tone_marks`. -/
def remove_tone_marks (s : String) : String :=
  String.mk (nfc ((nfd s.data).filter (fun c => !TONE_DIACRITICS.contains c)))

/-- `BambaraNormalizer._remove_non_tone_diacritics`. -/
def remove_non_tone_diacritics (s : String) : String :=
  String.mk (nfc ((nfd s.data).filter (fun c =>
    !combiningMarks.contains c || TONE_DIACRITICS.contains c)))

/-- `BambaraNormalizer._remove_punctuation`: the punctuation-category
characters except the apostrophe variants. -/
def remove_punctuation (s : String) : String :=
  String.mk (s.data.filter (fun c =>
    !(isPunctCat c && !APOSTROPHE_VARIANTS.contains c)))

/-- `BambaraNormalizer._strip_repetitions`: the regex
`(.)\1{2,} → \1\1` compresses every run of three or more equal
characters to two. -/
def strip_repetitions_chars : List Char → List Char
  | a :: b :: c :: rest =>
    if a == b && b == c then strip_repetitions_chars (b :: c :: rest)
    else a :: strip_repetitions_chars (b :: c :: rest)
  | cs => cs

/-- `BambaraNormalizer._strip_repetitions`. -/
def strip_repetitions_pass (s : String) : String :=
  String.mk (strip_repetitions_chars s.data)

/-- The unit words of the `\b(bi)\s+(…)\b` compound regex (note it lists
`segin`, not `seegin`). -/
def compoundUnits : List String :=
  ["saba", "naani", "duuru", "wɔɔrɔ", "wolonwula", "segin", "kɔnɔntɔn"]

/-- `BambaraNormalizer._normalize_compounds` on single-space token
material: join `bi` with a following listed unit word
(case-insensitively); the second rule `(tan)\s+(ni)\s+ → "tan ni "` is
the identity there. -/
def normalize_compounds_tokens : List String → List String
  | a :: b :: rest =>
    if pyLower a == "bi" && compoundUnits.contains (pyLower b) then
      (a ++ b) :: normalize_compounds_tokens rest
    else a :: normalize_compounds_tokens (b :: rest)
  | cs => cs

/-- `BambaraNormalizer._normalize_compounds`. -/
def normalize_compounds_pass (s : String) : String :=
  joinSp (normalize_compounds_tokens (splitWs s))

/-- `BambaraNormalizer._normalize_whitespace`: collapse whitespace runs
to single spaces and strip the ends. -/
def normalize_whitespace_pass (s : String) : String := joinSp (splitWs s)

/-- The passes of `BambaraNormalizer.normalize` after the contraction
pass. -/
def post_contraction_passes (cfg : NormalizerConfig) (t0 : String) : String :=
  let t := t0
  let t := if cfg.normalize_legacy_orthography then
    normalize_legacy_orthography t else t
  let t := if cfg.normalize_special_chars then normalize_special_chars t else t
  let t := if cfg.lowercase then pyLower t else t
  let t := if !cfg.preserve_tones then remove_tone_marks t
    else if cfg.remove_diacritics_except_tones then
      remove_non_tone_diacritics t
    else t
  let t := if cfg.remove_punctuation then remove_punctuation t else t
  let t := if cfg.strip_repetitions then strip_repetitions_pass t else t
  let t := if cfg.normalize_compounds then normalize_compounds_pass t else t
  if cfg.normalize_whitespace then normalize_whitespace_pass t else t

/-- `BambaraNormalizer.normalize` from `normalizer.py`: NFC, apostrophe
canonicalization, the contraction pass when the mode is `expand` (the
source has no other contraction branch), then the remaining passes. -/
def bambara_normalize (cfg : NormalizerConfig) (text : String) : String :=
  if text = "" then ""
  else
    let t := String.mk (nfc text.data)
    let t := if cfg.normalize_apostrophes then normalize_apostrophes t else t
    let t := if cfg.expandContractions then expand_contractions t else t
    post_contraction_passes cfg t

/-! ### The exception-explicit pipeline (for the totality claim)

The only indexing in `normalize` is the bounded lookahead of the
contraction pass (`words[i + 1]`, `words[i + 2]`, `words[i + 3]`, each
under an explicit `< len(words)` test).  The variant below performs those
accesses through a fallible lookup that raises on an out-of-range index,
exactly where the Python code would; proving it equal to `.ok` of the
pure pipeline shows every access is guarded, i.e. the pipeline returns a
result and never raises. -/

/-- `words[i]` as a fallible access. -/
def idxE (l : List String) (i : Nat) : Except String String :=
  match l.get? i with
  | some x => .ok x
  | none => .error "IndexError"

/-- `expand_k_word` with explicit fallible indexing, mirroring the
bounds tests of the source loop. -/
def expand_k_wordE (w : String) (rest : List String) :
    Except String String :=
  match kMatchStem w with
  | none => .ok w
  | some stem =>
    if 0 < rest.length then do
      let n1 ← idxE rest 0
      match get_lookahead_base n1 with
      | none =>
        pure (if predict_k_expansion rest = "ka" then "ko " ++ stem
              else "ka " ++ stem)
      | some nb =>
        if nb = "ma" then
          if 1 < rest.length then do
            let a ← idxE rest 1
            let ab := lookahead_fold a
            if 2 < rest.length then do
              let b ← idxE rest 2
              if lookahead_fold b = "ye" then pure ("kɛ " ++ stem)
              else if REPORTED_SPEECH_MARKERS.contains ab then
                pure ("ko " ++ stem)
              else pure ("kɛ " ++ stem)
            else if REPORTED_SPEECH_MARKERS.contains ab then
              pure ("ko " ++ stem)
            else pure ("kɛ " ++ stem)
          else pure ("kɛ " ++ stem)
        else if KE_POSTPOSITIONS.contains nb then pure ("kɛ " ++ stem)
        else if CLAUSE_MARKERS.contains nb then pure ("ko " ++ stem)
        else pure ("ka " ++ stem)
    else pure ("ka " ++ stem)

/-- `expand_n_word` with explicit fallible indexing. -/
def expand_n_wordE (w : String) (rest : List String) :
    Except String String :=
  match nMatchStem w with
  | none => .ok w
  | some stem =>
    if 0 < rest.length then do
      let n1 ← idxE rest 0
      pure (if lookahead_fold n1 = "ma" then "na " ++ stem
            else "ni " ++ stem)
    else pure ("ni " ++ stem)

/-- The `k\x27` loop with fallible indexing. -/
def expand_k_tokensE : List String → Except String (List String)
  | [] => .ok []
  | w :: rest => do
    let x ← expand_k_wordE w rest
    let xs ← expand_k_tokensE rest
    pure (x :: xs)

/-- The `n\x27` loop with fallible indexing. -/
def expand_n_tokensE : List String → Except String (List String)
  | [] => .ok []
  | w :: rest => do
    let x ← expand_n_wordE w rest
    let xs ← expand_n_tokensE rest
    pure (x :: xs)

/-- `_expand_contractions` with fallible indexing. -/
def expand_contractionsE (text : String) : Except String String := do
  let l1 ← expand_k_tokensE (splitWs text)
  let l2 ← expand_n_tokensE (splitWs (joinSp l1))
  let t2 := joinSp l2
  let t3 := EXTENDED_CONTRACTIONS.foldl (fun acc p => ciReplace p.1 p.2 acc) t2
  pure (SIMPLE_CONTRACTIONS.foldl (fun acc p => ciReplace p.1 p.2 acc) t3)

/-- `normalize` with fallible indexing in the contraction pass. -/
def bambara_normalizeE (cfg : NormalizerConfig) (text : String) :
    Except String String :=
  if text = "" then .ok ""
  else
    let t := String.mk (nfc text.data)
    let t := if cfg.normalize_apostrophes then normalize_apostrophes t else t
    match (if cfg.expandContractions then expand_contractionsE t
           else .ok t) with
    | .error e => .error e
    | .ok t => .ok (post_contraction_passes cfg t)

/-! ### Size lemmas for the token-level split (used by the C8 development) -/

theorem splitNiGo_size (ts : List String) :
    ∀ cur, sumLen (splitNiGo cur ts) + (splitNiGo cur ts).length ≤
      cur.length + ts.length + 1 := by
  induction ts with
  | nil => intro cur; simp [splitNiGo, sumLen]
  | cons t rest ih =>
    intro cur
    simp only [splitNiGo]
    by_cases h : (t == "ni" && !cur.isEmpty && !rest.isEmpty) = true
    · rw [if_pos h]
      have h1 := ih []
      simp only [sumLen, List.length_nil, List.map_cons, List.sum_cons,
        List.length_cons, List.length_reverse] at h1 ⊢
      omega
    · rw [if_neg h]
      have h1 := ih (t :: cur)
      simp only [List.length_cons] at h1 ⊢
      omega

theorem sumLen_filter_le (gs : List (List String)) (p : List String → Bool) :
    sumLen (gs.filter p) + (gs.filter p).length ≤ sumLen gs + gs.length := by
  induction gs with
  | nil => simp [sumLen]
  | cons g rest ih =>
    by_cases h : p g = true
    · simp only [List.filter_cons, h, if_true, sumLen, List.map_cons,
        List.sum_cons, List.length_cons] at *
      omega
    · simp only [List.filter_cons, h, if_false, Bool.false_eq_true, sumLen,
        List.map_cons, List.sum_cons, List.length_cons] at *
      omega

theorem splitNi_size (ts : List String) :
    sumLen (splitNi ts) + (splitNi ts).length ≤ ts.length + 1 := by
  have h1 := splitNiGo_size ts []
  have h2 := sumLen_filter_le (splitNiGo [] ts) (fun g => !g.isEmpty)
  simp only [splitNi, List.length_nil] at *
  omega

theorem splitNiGo_sumLen (ts : List String) :
    ∀ cur, sumLen (splitNiGo cur ts) ≤ cur.length + ts.length := by
  induction ts with
  | nil => intro cur; simp [splitNiGo, sumLen]
  | cons t rest ih =>
    intro cur
    simp only [splitNiGo]
    by_cases h : (t == "ni" && !cur.isEmpty && !rest.isEmpty) = true
    · rw [if_pos h]
      have h1 := ih []
      simp only [sumLen, List.length_nil, List.map_cons, List.sum_cons,
        List.length_cons, List.length_reverse] at h1 ⊢
      omega
    · rw [if_neg h]
      have h1 := ih (t :: cur)
      simp only [List.length_cons] at h1 ⊢
      omega

theorem sumLen_filter_mono (gs : List (List String)) (p : List String → Bool) :
    sumLen (gs.filter p) ≤ sumLen gs := by
  induction gs with
  | nil => simp [sumLen]
  | cons g rest ih =>
    by_cases h : p g = true
    · simp only [List.filter_cons, h, if_true, sumLen, List.map_cons,
        List.sum_cons] at *
      omega
    · simp only [List.filter_cons, h, if_false, Bool.false_eq_true, sumLen,
        List.map_cons, List.sum_cons] at *
      omega

theorem splitNi_sumLen (ts : List String) : sumLen (splitNi ts) ≤ ts.length := by
  have h1 := splitNiGo_sumLen ts []
  have h2 := sumLen_filter_mono (splitNiGo [] ts) (fun g => !g.isEmpty)
  simp only [splitNi, List.length_nil] at *
  omega

theorem stripNiRem_length {r r2 : List String} (h : stripNiRem r = some r2) :
    r2.length ≤ r.length := by
  match r with
  | [] => simp [stripNiRem] at h
  | hd :: t =>
    simp only [stripNiRem] at h
    by_cases hp : (strIsPrefix "ni" hd) = true
    · simp only [hp, if_true, Option.some.injEq] at h
      by_cases he : (strDrop hd 2 == "") = true
      · simp only [he, if_true] at h; subst h; simp
      · simp only [he, if_false, Bool.false_eq_true] at h
        subst h; simp
    · simp [hp] at h

theorem tensScan_remainder_lt {l : List (List String × Nat)}
    {ts r2 : List String} {v : Nat}
    (hkeys : ∀ p ∈ l, (p.1 : List String) ≠ [])
    (h : tensScan l ts = some (v, some r2)) : r2.length < ts.length := by
  induction l with
  | nil => simp [tensScan] at h
  | cons kv restKeys ih =>
    obtain ⟨key, kval⟩ := kv
    simp only [tensScan] at h
    by_cases he : (ts == key) = true
    · simp [he] at h
    · simp only [he, if_false, Bool.false_eq_true] at h
      by_cases hp : (key.isPrefixOf ts && decide (key.length < ts.length)) = true
      · simp only [hp, if_true] at h
        cases hs : stripNiRem (ts.drop key.length) with
        | none =>
          simp only [hs] at h
          exact ih (fun p hm => hkeys p (List.mem_cons_of_mem _ hm)) h
        | some rr =>
          simp only [hs, Option.some.injEq, Prod.mk.injEq] at h
          obtain ⟨-, h2⟩ := h
          subst h2
          have hlen := stripNiRem_length hs
          have hklen : 0 < key.length := by
            have hne := hkeys (key, kval) (List.mem_cons_self _ _)
            simp only [ne_eq] at hne
            exact List.length_pos.mpr hne
          rw [Bool.and_eq_true] at hp
          have hlt : key.length < ts.length := of_decide_eq_true hp.2
          have : (ts.drop key.length).length = ts.length - key.length := by
            simp
          omega
      · simp only [hp, if_false, Bool.false_eq_true] at h
        exact ih (fun p hm => hkeys p (List.mem_cons_of_mem _ hm)) h

/-! ### Claims about the numeral converter -/

/-- Claim C1: the spec asserts `wordsToNumber(numberToWords(n)) == n` for
every `0 ≤ n ≤ 999999999`.  The five concrete examples do hold, but the
invariant itself fails inside the claimed range: `11000` renders as
`"waa tan ni kelen"`, whose `" ni "`-split separates the thousands
multiplier from its own compound count so that the phrase parses back to
`10001`; and `1000000` renders with the million word `"miliyɔn"`, which is
absent from the `MULTIPLIER_VALUES` table of the parser (it only knows
`"milyɔn"`/`"milyon"`), so the parse raises `ValueError`. -/
theorem claim_C1_integer_roundtrip :
    int_to_bambara 0 = ["fu"] ∧
    int_to_bambara 15 = ["tan", "ni", "duuru"] ∧
    int_to_bambara 123 = ["kɛmɛ", "ni", "mugan", "ni", "saba"] ∧
    int_to_bambara 1000 = ["waa", "kelen"] ∧
    int_to_bambara 5000 = ["waa", "duuru"] ∧
    parse_bambara_int (int_to_bambara 0) = .ok 0 ∧
    parse_bambara_int (int_to_bambara 15) = .ok 15 ∧
    parse_bambara_int (int_to_bambara 123) = .ok 123 ∧
    parse_bambara_int (int_to_bambara 1000) = .ok 1000 ∧
    parse_bambara_int (int_to_bambara 5000) = .ok 5000 ∧
    int_to_bambara 11000 = ["waa", "tan", "ni", "kelen"] ∧
    parse_bambara_int (int_to_bambara 11000) = .ok 10001 ∧
    parse_bambara_int (int_to_bambara 11000) ≠ .ok 11000 ∧
    parse_bambara_int (int_to_bambara 1000000) =
      .error ("Cannot parse: \x27miliyɔn kelen\x27") := by
  decide

/-- Claim C5: decimal round-trip.  The concrete example `5.3` round-trips
through `"duuru tomi saba"`, but the invariant fails at `5.4`: the
fractional phrase `"naani"` is split by `_parse_decimal_digits` on the
*substring* `"ni"`, leaving the unrecognizable piece `"naa"`, so every
fractional digit `4` is dropped and `5.4` parses back as `5.0`. -/
theorem claim_C5_decimal_roundtrip :
    float_to_bambara 5 [3] = ["duuru", "tomi", "saba"] ∧
    bambara_to_number (float_to_bambara 5 [3]) = .ok (.floatVal 5 "3") ∧
    float_to_bambara 5 [4] = ["duuru", "tomi", "naani"] ∧
    bambara_to_number (float_to_bambara 5 [4]) = .ok (.floatVal 5 "0") ∧
    bambara_to_number (float_to_bambara 5 [4]) ≠ .ok (.floatVal 5 "4") := by
  decide

/-- Claim C10: `bambara_to_number` on an empty (or whitespace-only, hence
token-free) phrase returns the integer `0` via the empty-phrase branch
of `_parse_bambara_int`, and a decimal phrase with no integer part before the
separator word takes integer part `0`, so `"tomi saba"` parses to the
float `0.3`. -/
theorem claim_C10_empty_and_missing_integer_part :
    bambara_to_number [] = .ok (.intVal 0) ∧
    parse_bambara_int [] = .ok 0 ∧
    bambara_to_number ["tomi", "saba"] = .ok (.floatVal 0 "3") := by
  decide

/-- Claim C8 counterexample: the phrase `"kelen tomi xyz"` contains the
group `"xyz"`, which has no recognizable numeral vocabulary, yet
`bambara_to_number` silently returns the value `1.0` instead of raising:
`_parse_decimal_digits` skips unrecognized fractional tokens and never
raises. -/
theorem claim_C8_counterexample :
    bambara_to_number ["kelen", "tomi", "xyz"] = .ok (.floatVal 1 "0") := by
  decide

/-! ### The amended C8: on the integer parser, a fully-unrecognizable
group always raises -/

theorem badGroup_not_recognized {g : List String} {t : String}
    (hb : badGroup g = true) (ht : t ∈ g) : recognizedNumToken t = false := by
  simp only [badGroup, Bool.and_eq_true, List.all_eq_true,
    Bool.not_eq_true'] at hb
  exact hb.2 t ht

theorem lookupUnit_none_of_unrecognized {t : String}
    (h : recognizedNumToken t = false) : lookupUnit t = none := by
  cases hq : lookupUnit t with
  | none => rfl
  | some v => simp [recognizedNumToken, hq] at h

theorem lookupMult_none_of_unrecognized {t : String}
    (h : recognizedNumToken t = false) : lookupMult t = none := by
  cases hq : lookupMult t with
  | none => rfl
  | some v => simp [recognizedNumToken, hq] at h

theorem ne_of_unrecognized {t : String} (w : String)
    (h : recognizedNumToken t = false) (hw : recognizedNumToken w = true) :
    (t == w) = false := by
  cases hq : (t == w) with
  | false => rfl
  | true =>
    have : t = w := by simpa using hq
    subst this
    rw [hw] at h
    cases h

theorem sumGroups_go_bad_head (fuel : Nat) (t0 : String) (gt : List String)
    (rest : List (List String)) (hb : badGroup (t0 :: gt) = true) :
    sumGroups_go (fuel + 1) ((t0 :: gt) :: rest) =
      .error ("Cannot parse: \x27" ++ joinSp (t0 :: gt) ++ "\x27") := by
  have ht0 := badGroup_not_recognized hb (List.mem_cons_self _ _)
  have hu := lookupUnit_none_of_unrecognized ht0
  have hm := lookupMult_none_of_unrecognized ht0
  have hbi := ne_of_unrecognized "bi" ht0 (by decide)
  have hwaa := ne_of_unrecognized "waa" ht0 (by decide)
  have hmil1 := ne_of_unrecognized "milyɔn" ht0 (by decide)
  have hmil2 := ne_of_unrecognized "milyon" ht0 (by decide)
  have hfind : TENS_VALUES.find? (fun p => p.1 == (t0 :: gt)) = none := by
    rw [List.find?_eq_none]
    intro p hp
    fin_cases hp <;>
      · simp only [beq_iff_eq, Bool.not_eq_true]
        intro h
        injection h with h1 h2
        subst h1
        rw [(by decide : recognizedNumToken _ = true)] at ht0
        cases ht0
  have hsingle : (match (t0 :: gt) with | [u] => lookupUnit u | _ => none) =
      (none : Option Nat) := by
    cases gt with
    | nil => simpa using hu
    | cons a b => rfl
  simp [sumGroups_go, hbi, hu, hm, hwaa, hmil1, hmil2, hfind, hsingle]

theorem sumGroups_go_cons_error (fuel : Nat) (g : List String)
    (rest : List (List String)) (h : ∃ e, sumGroups_go fuel rest = .error e) :
    ∃ e, sumGroups_go (fuel + 1) (g :: rest) = .error e := by
  obtain ⟨e, he⟩ := h
  cases g with
  | nil => exact ⟨e, by simpa [sumGroups_go] using he⟩
  | cons t0 gt =>
    simp only [sumGroups_go]
    repeat first
      | exact ⟨e, by rw [he]; rfl⟩
      | exact ⟨_, rfl⟩
      | split

theorem sumGroups_go_error_of_mem :
    ∀ (gs : List (List String)) (fuel : Nat) (g : List String),
      gs.length < fuel → g ∈ gs → badGroup g = true →
      ∃ e, sumGroups_go fuel gs = .error e := by
  intro gs
  induction gs with
  | nil => intro fuel g _ hmem; simp at hmem
  | cons g0 rest ih =>
    intro fuel g hflen hmem hb
    match fuel, hflen with
    | fuel + 1, hflen =>
      by_cases hb0 : badGroup g0 = true
      · match g0, hb0 with
        | t0 :: gt, hb0 => exact ⟨_, sumGroups_go_bad_head fuel t0 gt rest hb0⟩
      · have hg : g ∈ rest := by
          rcases List.mem_cons.mp hmem with h | h
          · subst h; exact absurd hb hb0
          · exact h
        have hrec := ih fuel g (by simpa using Nat.lt_of_succ_lt_succ hflen) hg hb
        exact sumGroups_go_cons_error fuel g0 rest hrec

theorem splitNiGo_append_no_ni (key : List String)
    (hk : ∀ t ∈ key, t ≠ "ni") :
    ∀ cur ts, splitNiGo cur (key ++ ts) = splitNiGo (key.reverse ++ cur) ts := by
  induction key with
  | nil => intro cur ts; simp
  | cons k kr ih =>
    intro cur ts
    have hkni : (k == "ni") = false :=
      beq_eq_false_iff_ne.mpr (hk k (List.mem_cons_self _ _))
    simp only [List.cons_append, splitNiGo, hkni, Bool.false_and,
      Bool.false_eq_true, if_false, List.append_eq]
    rw [ih (fun t ht => hk t (List.mem_cons_of_mem _ ht)) (k :: cur) ts]
    simp [List.reverse_cons, List.append_assoc]

theorem splitNiGo_structure (ts : List String) :
    ∃ pre rest, ∀ cur : List String, cur ≠ [] →
      splitNiGo cur ts = (cur.reverse ++ pre) :: rest := by
  induction ts with
  | nil => exact ⟨[], [], fun cur _ => by simp [splitNiGo]⟩
  | cons u t ih =>
    by_cases hu : (u == "ni") = true ∧ t ≠ []
    · refine ⟨[], splitNiGo [] t, fun cur hc => ?_⟩
      have hcond : (u == "ni" && !cur.isEmpty && !t.isEmpty) = true := by
        simp [hu.1, hc, hu.2, List.isEmpty_iff]
      simp [splitNiGo, hcond]
    · obtain ⟨pre, rest, hpr⟩ := ih
      refine ⟨u :: pre, rest, fun cur hc => ?_⟩
      have hcond : (u == "ni" && !cur.isEmpty && !t.isEmpty) = false := by
        rcases not_and_or.mp hu with h | h
        · simp [Bool.eq_false_iff.mpr h]
        · simp [List.isEmpty_iff.mpr (not_not.mp h)]
      simp only [splitNiGo, hcond, Bool.false_eq_true, if_false]
      rw [hpr (u :: cur) (by simp)]
      simp [List.reverse_cons, List.append_assoc]

theorem splitNi_no_ni (key : List String) (hk : ∀ t ∈ key, t ≠ "ni")
    (hne : key ≠ []) : splitNi key = [key] := by
  have h1 : splitNiGo [] (key ++ []) = splitNiGo key.reverse [] := by
    simpa using splitNiGo_append_no_ni key hk [] []
  simp only [List.append_nil] at h1
  simp only [splitNi, h1, splitNiGo, List.reverse_reverse]
  simp [List.isEmpty_iff, hne]

theorem tensScan_some_none_inv {l : List (List String × Nat)}
    {ts : List String} {v : Nat} (h : tensScan l ts = some (v, none)) :
    ∃ key, (key, v) ∈ l ∧ ts = key := by
  induction l with
  | nil => simp [tensScan] at h
  | cons kv restKeys ih =>
    obtain ⟨key, kval⟩ := kv
    simp only [tensScan] at h
    by_cases he : (ts == key) = true
    · simp only [he, if_true, Option.some.injEq, Prod.mk.injEq] at h
      exact ⟨key, by simp [h.1.symm], by simpa using he⟩
    · simp only [he, if_false, Bool.false_eq_true] at h
      by_cases hp : (key.isPrefixOf ts && decide (key.length < ts.length)) = true
      · simp only [hp, if_true] at h
        cases hs : stripNiRem (ts.drop key.length) with
        | none =>
          simp only [hs] at h
          obtain ⟨k, hk1, hk2⟩ := ih h
          exact ⟨k, List.mem_cons_of_mem _ hk1, hk2⟩
        | some rr => simp [hs] at h
      · simp only [hp, if_false, Bool.false_eq_true] at h
        obtain ⟨k, hk1, hk2⟩ := ih h
        exact ⟨k, List.mem_cons_of_mem _ hk1, hk2⟩

theorem tensScan_some_some_inv {l : List (List String × Nat)}
    {ts r2 : List String} {v : Nat} (h : tensScan l ts = some (v, some r2)) :
    ∃ key, (key, v) ∈ l ∧ key.isPrefixOf ts = true ∧ key.length < ts.length ∧
      stripNiRem (ts.drop key.length) = some r2 := by
  induction l with
  | nil => simp [tensScan] at h
  | cons kv restKeys ih =>
    obtain ⟨key, kval⟩ := kv
    simp only [tensScan] at h
    by_cases he : (ts == key) = true
    · simp [he] at h
    · simp only [he, if_false, Bool.false_eq_true] at h
      by_cases hp : (key.isPrefixOf ts && decide (key.length < ts.length)) = true
      · simp only [hp, if_true] at h
        cases hs : stripNiRem (ts.drop key.length) with
        | none =>
          simp only [hs] at h
          obtain ⟨k, hk1, hk2, hk3, hk4⟩ := ih h
          exact ⟨k, List.mem_cons_of_mem _ hk1, hk2, hk3, hk4⟩
        | some rr =>
          simp only [hs, Option.some.injEq, Prod.mk.injEq] at h
          obtain ⟨h1, h2⟩ := h
          rw [Bool.and_eq_true] at hp
          exact ⟨key, by simp [h1.symm], hp.1, of_decide_eq_true hp.2,
            by rw [hs, h2]⟩
      · simp only [hp, if_false, Bool.false_eq_true] at h
        obtain ⟨k, hk1, hk2, hk3, hk4⟩ := ih h
        exact ⟨k, List.mem_cons_of_mem _ hk1, hk2, hk3, hk4⟩

theorem tens_key_props : ∀ p ∈ TENS_VALUES,
    p.1 ≠ [] ∧ recognizedNumToken (p.1.headD "") = true ∧
      ∀ t ∈ p.1, t ≠ "ni" := by
  decide

theorem badGroup_head_absurd {k0 : String} {kr tail g : List String}
    (hg : g = (k0 :: kr) ++ tail) (hk0 : recognizedNumToken k0 = true)
    (hb : badGroup g = true) : False := by
  have h1 : k0 ∈ g := by
    rw [hg]; exact List.mem_append_left _ (List.mem_cons_self _ _)
  rw [badGroup_not_recognized hb h1] at hk0
  cases hk0

theorem badGroup_mem_transfer {key r r2 g : List String} {k0 : String}
    {kr : List String}
    (hkni : ∀ t ∈ key, t ≠ "ni") (hkey : key = k0 :: kr)
    (hk0 : recognizedNumToken k0 = true)
    (hstrip : stripNiRem r = some r2)
    (hg : g ∈ splitNi (key ++ r)) (hb : badGroup g = true) :
    g ∈ splitNi r2 := by
  match r, hstrip with
  | h :: t, hstrip =>
    have hkeyne : key ≠ [] := by rw [hkey]; exact List.cons_ne_nil _ _
    have hrevne : key.reverse ≠ [] := by simpa using hkeyne
    have happ : splitNiGo [] (key ++ h :: t) = splitNiGo key.reverse (h :: t) := by
      simpa using splitNiGo_append_no_ni key hkni [] (h :: t)
    simp only [stripNiRem] at hstrip
    by_cases hpre : (strIsPrefix "ni" h) = true
    · simp only [hpre, if_true, Option.some.injEq] at hstrip
      obtain ⟨sfx, hsfx⟩ := List.isPrefixOf_iff_prefix.mp hpre
      have hdata : h.data = 'n' :: 'i' :: sfx := by
        rw [← hsfx]; rfl
      have hdrop : strDrop h 2 = String.mk sfx := by
        simp [strDrop, hdata]
      by_cases hempty : (strDrop h 2 == "") = true
      · have hsfxnil : sfx = [] := by
          rw [hdrop] at hempty
          have : String.mk sfx = "" := by simpa using hempty
          simpa using congrArg String.data this
        have hh : h = "ni" := by
          cases h with
          | mk d =>
            have hd : d = ['n', 'i'] := by simpa [hsfxnil] using hdata
            subst hd
            rfl
        subst hh
        simp only [hempty, if_true] at hstrip
        subst hstrip
        match t with
        | [] =>
          exfalso
          have hsplit : splitNi (key ++ ["ni"]) = [key ++ ["ni"]] := by
            simp only [splitNi, happ, splitNiGo, List.isEmpty_nil,
              Bool.not_true, Bool.and_false, Bool.false_eq_true, if_false,
              List.reverse_cons, List.reverse_reverse]
            simp [List.isEmpty_iff, hkeyne]
          rw [hsplit] at hg
          have hgeq : g = key ++ ["ni"] := by simpa using hg
          exact badGroup_head_absurd (by rw [hgeq, hkey]) hk0 hb
        | t1 :: tt =>
          have hsplit : splitNi (key ++ "ni" :: t1 :: tt) =
              key :: splitNi (t1 :: tt) := by
            have hcond : (("ni" : String) == "ni" && !key.reverse.isEmpty &&
                !(t1 :: tt).isEmpty) = true := by
              simp [List.isEmpty_iff, hrevne]
            simp only [splitNi, happ, splitNiGo, hcond, if_true,
              List.reverse_reverse, List.filter_cons]
            simp [List.isEmpty_iff, hkeyne]
          rw [hsplit] at hg
          rcases List.mem_cons.mp hg with hgk | hgm
          · exact (badGroup_head_absurd
              (by rw [hgk, hkey, List.append_nil]) hk0 hb).elim
          · exact hgm
      · simp only [hempty, if_false, Bool.false_eq_true] at hstrip
        subst hstrip
        have hhne : (h == "ni") = false := by
          cases hq : (h == "ni") with
          | false => rfl
          | true =>
            have : h = "ni" := by simpa using hq
            subst this
            exact absurd (by decide : (strDrop "ni" 2 == "") = true) hempty
        obtain ⟨pre, rest, hpr⟩ := splitNiGo_structure t
        have hlhs : splitNiGo [] (key ++ h :: t) =
            (key ++ h :: pre) :: rest := by
          rw [happ]
          simp only [splitNiGo, hhne, Bool.false_and, Bool.false_eq_true,
            if_false]
          rw [hpr (h :: key.reverse) (List.cons_ne_nil _ _)]
          simp [List.reverse_cons]
        have hrhs : splitNiGo [] (strDrop h 2 :: t) =
            (strDrop h 2 :: pre) :: rest := by
          simp only [splitNiGo, List.isEmpty_nil, Bool.not_true,
            Bool.and_false, Bool.false_and, Bool.false_eq_true, if_false]
          rw [hpr [strDrop h 2] (List.cons_ne_nil _ _)]
          rfl
        have hfirstne : key ++ h :: pre ≠ [] := by
          rw [hkey]; exact List.cons_ne_nil _ _
        have hsplit1 : splitNi (key ++ h :: t) =
            (key ++ h :: pre) :: (rest.filter (fun x => !x.isEmpty)) := by
          simp only [splitNi, hlhs, List.filter_cons]
          simp [List.isEmpty_iff, hfirstne]
        have hsplit2 : splitNi (strDrop h 2 :: t) =
            (strDrop h 2 :: pre) :: (rest.filter (fun x => !x.isEmpty)) := by
          simp only [splitNi, hrhs, List.filter_cons]
          simp
        rw [hsplit1] at hg
        rw [hsplit2]
        rcases List.mem_cons.mp hg with hgk | hgm
        · exact (badGroup_head_absurd (by rw [hgk, hkey]) hk0 hb).elim
        · exact List.mem_cons_of_mem _ hgm
    · simp [hpre] at hstrip

theorem parse_go_error_of_bad :
    ∀ fuel ts g, 2 * ts.length + 3 ≤ fuel → g ∈ splitNi ts →
      badGroup g = true → ∃ e, parse_go fuel ts = .error e := by
  intro fuel
  induction fuel with
  | zero => intro ts g h _ _; omega
  | succ f ih =>
    intro ts g hfuel hg hb
    have hne : ts ≠ [] := by
      rintro rfl
      simp [splitNi, splitNiGo] at hg
    have hemp : ts.isEmpty = false := by simp [List.isEmpty_iff, hne]
    have hlenpos : 1 ≤ ts.length := List.length_pos.mpr hne
    cases hunit : (match ts with | [t] => lookupUnit t | _ => none) with
    | some v =>
      exfalso
      match ts, hunit with
      | [t], hunit =>
        have hsplit : splitNi [t] = [[t]] := by
          simp [splitNi, splitNiGo]
        rw [hsplit] at hg
        have hgt : g = [t] := by simpa using hg
        have hrec := badGroup_not_recognized hb (hgt ▸ List.mem_cons_self t [])
        have hunit2 : lookupUnit t = some v := hunit
        rw [lookupUnit_none_of_unrecognized hrec] at hunit2
        cases hunit2
    | none =>
      cases hscan : tensScan TENS_VALUES ts with
      | some pr =>
        obtain ⟨v, ropt⟩ := pr
        cases ropt with
        | none =>
          exfalso
          obtain ⟨key, hmem, hts⟩ := tensScan_some_none_inv hscan
          obtain ⟨hkne, hk0m, hknim⟩ := tens_key_props _ hmem
          match key, hkne, hk0m, hknim, hts with
          | k0 :: kr, _, hk0m, hknim, hts =>
            subst hts
            simp only [List.headD_cons] at hk0m
            rw [splitNi_no_ni _ hknim (List.cons_ne_nil _ _)] at hg
            have hgk : g = k0 :: kr := by simpa using hg
            exact badGroup_head_absurd (by rw [hgk, List.append_nil]) hk0m hb
        | some r2 =>
          obtain ⟨key, hmem, hpref, hklen, hstrip⟩ := tensScan_some_some_inv hscan
          obtain ⟨hkne, hk0m, hknim⟩ := tens_key_props _ hmem
          match key, hkne, hk0m, hknim, hpref, hklen, hstrip with
          | k0 :: kr, _, hk0m, hknim, hpref, hklen, hstrip =>
            simp only [List.headD_cons] at hk0m
            obtain ⟨u, hu⟩ := List.isPrefixOf_iff_prefix.mp hpref
            have hdrop : ts.drop (k0 :: kr).length = u := by
              rw [← hu]; exact List.drop_left _ _
            rw [hdrop] at hstrip
            rw [← hu] at hg
            have hg2 : g ∈ splitNi r2 :=
              badGroup_mem_transfer hknim rfl hk0m hstrip hg hb
            have hr2len : r2.length < ts.length := by
              have h1 := stripNiRem_length hstrip
              have h2 : ts.length = (k0 :: kr).length + u.length := by
                rw [← hu, List.length_append]
              simp only [List.length_cons] at h2
              omega
            obtain ⟨e, he⟩ := ih r2 g (by omega) hg2 hb
            exact ⟨e, by simp [parse_go, hemp, hunit, hscan, he, Except.map]⟩
      | none =>
        have hcount : (splitNi ts).length < f := by
          have := splitNi_size ts
          omega
        obtain ⟨e, he⟩ := sumGroups_go_error_of_mem (splitNi ts) f g hcount hg hb
        exact ⟨e, by simp [parse_go, hemp, hunit, hscan, he]⟩

/-- Claim C8 (amended to the integer parser): whenever the
`" ni "`-split of the phrase handed to `_parse_bambara_int` contains a
(non-empty) group none of whose tokens is recognizable numeral
vocabulary, the parse raises `ValueError` (the malformed-numeral error,
naming the first offending group) and never returns a value.  The
original claim fails only for the fractional part of a decimal phrase,
whose parser silently skips unrecognizable tokens
(see the counterexample). -/
theorem claim_C8_amended_integer_parse (ts g : List String)
    (h1 : g ∈ splitNi ts) (h2 : badGroup g = true) :
    ∃ e, parse_bambara_int ts = .error e :=
  parse_go_error_of_bad (2 * ts.length + 3) ts g le_rfl h1 h2

/-- Witness for the amended C8 at the concrete phrase `"xyz"`. -/
theorem claim_C8_amended_witness :
    (["xyz"] ∈ splitNi ["xyz"] ∧ badGroup ["xyz"] = true) ∧
      ∃ e, parse_bambara_int ["xyz"] = .error e :=
  ⟨⟨by decide, by decide⟩,
    claim_C8_amended_integer_parse ["xyz"] ["xyz"] (by decide) (by decide)⟩

/-! ### Claims about the contraction engine -/

theorem mem_KE_ne_ma : ∀ p ∈ KE_POSTPOSITIONS, p ≠ "ma" := by decide

theorem mem_CM_props : ∀ p ∈ CLAUSE_MARKERS,
    p ≠ "ma" ∧ p ∉ KE_POSTPOSITIONS := by decide

theorem contains_of_mem {p : String} {l : List String} (h : p ∈ l) :
    l.contains p = true := by
  simpa [List.elem_iff] using h

theorem contains_eq_false_of_not_mem {p : String} {l : List String}
    (h : p ∉ l) : l.contains p = false := by
  cases hc : l.contains p with
  | false => rfl
  | true => exact absurd (by simpa [List.elem_iff] using hc) h

theorem ye_not_rsm : "ye" ∉ REPORTED_SPEECH_MARKERS := by decide

/-- Claim C3: the priority order of the `k\x27` disambiguation on a
non-`k\x27` next token, and the five concrete scenarios (the scenario
with `Ameriki` is taken on its lowercased form; the pipeline lowercases
before comparison and the disambiguation folds the lookahead words). -/
theorem claim_C3_k_disambiguation :
    (∀ w stem n1 n2 n3 r, kMatchStem w = some stem →
      get_lookahead_base n1 = some "ma" → lookahead_fold n3 = "ye" →
      expand_k_word w (n1 :: n2 :: n3 :: r) = "kɛ " ++ stem) ∧
    (∀ w stem n1 n2 r, kMatchStem w = some stem →
      get_lookahead_base n1 = some "ma" → lookahead_fold n2 = "ye" →
      expand_k_word w (n1 :: n2 :: r) = "kɛ " ++ stem) ∧
    (∀ w stem n1 n2, kMatchStem w = some stem →
      get_lookahead_base n1 = some "ma" →
      lookahead_fold n2 ∈ REPORTED_SPEECH_MARKERS →
      expand_k_word w [n1, n2] = "ko " ++ stem) ∧
    (∀ w stem n1 n2 n3 r, kMatchStem w = some stem →
      get_lookahead_base n1 = some "ma" →
      lookahead_fold n2 ∈ REPORTED_SPEECH_MARKERS →
      lookahead_fold n3 ≠ "ye" →
      expand_k_word w (n1 :: n2 :: n3 :: r) = "ko " ++ stem) ∧
    (∀ w stem n1, kMatchStem w = some stem →
      get_lookahead_base n1 = some "ma" →
      expand_k_word w [n1] = "kɛ " ++ stem) ∧
    (∀ w stem n1 rest p, kMatchStem w = some stem →
      get_lookahead_base n1 = some p → p ∈ KE_POSTPOSITIONS →
      expand_k_word w (n1 :: rest) = "kɛ " ++ stem) ∧
    (∀ w stem n1 rest p, kMatchStem w = some stem →
      get_lookahead_base n1 = some p → p ∈ CLAUSE_MARKERS →
      expand_k_word w (n1 :: rest) = "ko " ++ stem) ∧
    (∀ w stem n1 rest p, kMatchStem w = some stem →
      get_lookahead_base n1 = some p → p ∉ KE_POSTPOSITIONS →
      p ∉ CLAUSE_MARKERS → p ≠ "ma" →
      expand_k_word w (n1 :: rest) = "ka " ++ stem) ∧
    expand_contractions "k\x27a la" = "kɛ a la" ∧
    expand_contractions "k\x27a ta" = "ka a ta" ∧
    expand_contractions "k\x27an kana" = "ko an kana" ∧
    expand_contractions "k\x27a ma hɛrɛ ye" = "kɛ a ma hɛrɛ ye" ∧
    expand_contractions "k\x27anw ma ko ameriki kadi" =
      "ko anw ma ko ameriki kadi" := by
  refine ⟨?_, ?_, ?_, ?_, ?_, ?_, ?_, ?_, by decide, by decide, by decide,
    by decide, by decide⟩
  · intro w stem n1 n2 n3 r hk hb h3
    simp [expand_k_word, hk, hb, h3]
  · intro w stem n1 n2 r hk hb h2
    rcases r with _ | ⟨b, r2⟩
    · simp [expand_k_word, hk, hb, h2, ye_not_rsm]
    · by_cases hy : lookahead_fold b = "ye" <;>
        simp [expand_k_word, hk, hb, h2, hy, ye_not_rsm]
  · intro w stem n1 n2 hk hb h2
    simp [expand_k_word, hk, hb, h2]
  · intro w stem n1 n2 n3 r hk hb h2 h3
    simp [expand_k_word, hk, hb, h2, h3]
  · intro w stem n1 hk hb
    simp [expand_k_word, hk, hb]
  · intro w stem n1 rest p hk hb hp
    simp [expand_k_word, hk, hb, hp, mem_KE_ne_ma p hp]
  · intro w stem n1 rest p hk hb hp
    obtain ⟨hne, hke⟩ := mem_CM_props p hp
    simp [expand_k_word, hk, hb, hp, hne, hke]
  · intro w stem n1 rest p hk hb hp1 hp2 hp3
    simp [expand_k_word, hk, hb, hp1, hp2, hp3]

/-- Witness for claim C3 at `k\x27a la` (postposition case). -/
theorem claim_C3_witness :
    (kMatchStem "k\x27a" = some "a" ∧
      get_lookahead_base "la" = some "la" ∧ "la" ∈ KE_POSTPOSITIONS) ∧
      expand_k_word "k\x27a" ["la"] = "kɛ a" :=
  ⟨⟨by decide, by decide, by decide⟩,
    claim_C3_k_disambiguation.2.2.2.2.2.1 "k\x27a" "a" "la" [] "la"
      (by decide) (by decide) (by decide)⟩

/-- Claim C4: when the token after a `k\x27`-contraction is itself a
`k\x27`-contraction (`_get_lookahead_base` returns `None`), the engine
predicts that next contraction one level deeper and resolves the current
one to `ko` exactly when the prediction is the infinitive `ka`; the
prediction itself recurses on the suffix one token shorter; and the
concrete recursive scenario expands as specified. -/
theorem claim_C4_recursive_prediction :
    (∀ w stem n1 rest, kMatchStem w = some stem →
      get_lookahead_base n1 = none →
      expand_k_word w (n1 :: rest) =
        (if predict_k_expansion (n1 :: rest) = "ka" then "ko " ++ stem
         else "ka " ++ stem)) ∧
    (∀ w n1 rest, (kMatchStem w).isSome = true →
      get_lookahead_base n1 = none →
      predict_k_expansion (w :: n1 :: rest) =
        (if predict_k_expansion (n1 :: rest) = "ka" then "ko" else "ka")) ∧
    expand_contractions "k\x27o k\x27a la" = "ka o kɛ a la" := by
  refine ⟨?_, ?_, by decide⟩
  · intro w stem n1 rest hk hb
    simp [expand_k_word, hk, hb]
  · intro w n1 rest hk hb
    simp [predict_k_expansion, hk, hb]

/-- Witness for claim C4 at `k\x27o k\x27a la`. -/
theorem claim_C4_witness :
    (kMatchStem "k\x27o" = some "o" ∧ get_lookahead_base "k\x27a" = none) ∧
      expand_k_word "k\x27o" ["k\x27a", "la"] =
        (if predict_k_expansion ["k\x27a", "la"] = "ka" then "ko o"
         else "ka o") :=
  ⟨⟨by decide, by decide⟩,
    claim_C4_recursive_prediction.1 "k\x27o" "o" "k\x27a" ["la"]
      (by decide) (by decide)⟩

/-- Claim C6: the `n\x27` disambiguation uses one-token lookahead with no
recursion: a following folded `ma` gives the come-to verb `na`, anything
else (including no following token) the conjunction `ni`; the two
concrete scenarios hold through the expand pass. -/
theorem claim_C6_n_disambiguation :
    (∀ w stem n1 rest, nMatchStem w = some stem → lookahead_fold n1 = "ma" →
      expand_n_word w (n1 :: rest) = "na " ++ stem) ∧
    (∀ w stem n1 rest, nMatchStem w = some stem → lookahead_fold n1 ≠ "ma" →
      expand_n_word w (n1 :: rest) = "ni " ++ stem) ∧
    (∀ w stem, nMatchStem w = some stem →
      expand_n_word w [] = "ni " ++ stem) ∧
    expand_contractions "n\x27a ta" = "ni a ta" ∧
    expand_contractions "n\x27a ma" = "na a ma" := by
  refine ⟨?_, ?_, ?_, by decide, by decide⟩
  · intro w stem n1 rest hn hm
    simp [expand_n_word, hn, hm]
  · intro w stem n1 rest hn hm
    simp [expand_n_word, hn, hm]
  · intro w stem hn
    simp [expand_n_word, hn]

/-- Witness for claim C6 at `n\x27a ma`. -/
theorem claim_C6_witness :
    (nMatchStem "n\x27a" = some "a" ∧ lookahead_fold "ma" = "ma") ∧
      expand_n_word "n\x27a" ["ma"] = "na a" :=
  ⟨⟨by decide, by decide⟩,
    claim_C6_n_disambiguation.1 "n\x27a" "a" "ma" [] (by decide) (by decide)⟩

/-- Claim C2 (modelled from the spec, since contract mode is absent from
`normalizer.py` in the source tree): the contract scan merges a token
whose folded form keys `CONTRACTION_MAP` with a vowel-initial next token
and advances two tokens, otherwise emits the token and advances one;
contracting `bɛ a fɔ` yields `b\x27a fɔ`, and the expand pass applied to
`b\x27a fɔ` followed by the contract scan restores `b\x27a fɔ`. -/
theorem claim_C2_contract_mode :
    (∀ w next rest pfx,
      (CONTRACTION_MAP.find? (fun p => p.1 == lookahead_fold w)).map (·.2) =
        some pfx →
      startsWithVowel (lookahead_fold next) = true →
      contract_tokens (w :: next :: rest) =
        (pfx ++ next) :: contract_tokens rest) ∧
    (∀ w next rest pfx,
      (CONTRACTION_MAP.find? (fun p => p.1 == lookahead_fold w)).map (·.2) =
        some pfx →
      startsWithVowel (lookahead_fold next) = false →
      contract_tokens (w :: next :: rest) =
        w :: contract_tokens (next :: rest)) ∧
    (∀ w next rest,
      (CONTRACTION_MAP.find? (fun p => p.1 == lookahead_fold w)).map (·.2) =
        none →
      contract_tokens (w :: next :: rest) =
        w :: contract_tokens (next :: rest)) ∧
    contract_tokens ["bɛ", "a", "fɔ"] = ["b\x27a", "fɔ"] ∧
    contract_tokens (splitWs (expand_contractions "b\x27a fɔ")) =
      ["b\x27a", "fɔ"] := by
  refine ⟨?_, ?_, ?_, by decide, by decide⟩
  · intro w next rest pfx hf hv
    simp [contract_tokens, hf, hv]
  · intro w next rest pfx hf hv
    simp [contract_tokens, hf, hv]
  · intro w next rest hf
    simp [contract_tokens, hf]

/-- Witness for claim C2 at `bɛ a`. -/
theorem claim_C2_witness :
    ((CONTRACTION_MAP.find? (fun p => p.1 == lookahead_fold "bɛ")).map (·.2) =
        some "b\x27" ∧
      startsWithVowel (lookahead_fold "a") = true) ∧
      contract_tokens ["bɛ", "a"] = ["b\x27a"] :=
  ⟨⟨by decide, by decide⟩,
    claim_C2_contract_mode.1 "bɛ" "a" [] "b\x27" (by decide) (by decide)⟩

/-! ### Claims about the pipeline -/

/-- Claim C7 (code bug): the spec guarantees idempotence of the full
pipeline, but under the default configuration the input `n.y` breaks it:
the first pass removes the dot *after* the legacy-orthography pass has
already run, producing `ny`, and a second pass then rewrites the newly
formed digraph to `ɲ`. -/
theorem claim_C7_idempotence :
    bambara_normalize defaultConfig "n.y" = "ny" ∧
    bambara_normalize defaultConfig "ny" = "ɲ" ∧
    bambara_normalize defaultConfig (bambara_normalize defaultConfig "n.y") ≠
      bambara_normalize defaultConfig "n.y" := by
  decide

theorem expand_k_wordE_ok (w : String) (rest : List String) :
    expand_k_wordE w rest = .ok (expand_k_word w rest) := by
  cases hk : kMatchStem w with
  | none => simp [expand_k_wordE, expand_k_word, hk]
  | some stem =>
    rcases rest with _ | ⟨n1, rest2⟩
    · simp [expand_k_wordE, expand_k_word, hk, pure, Except.pure]
    · cases hb : get_lookahead_base n1 with
      | none =>
        simp [expand_k_wordE, expand_k_word, hk, hb, idxE, bind, Except.bind,
          pure, Except.pure]
      | some nb =>
        by_cases hma : nb = "ma"
        · rcases rest2 with _ | ⟨a, _ | ⟨b, rest4⟩⟩ <;>
            simp [expand_k_wordE, expand_k_word, hk, hb, hma, idxE, bind,
              Except.bind, pure, Except.pure] <;>
            all_goals (repeat' split) <;> rfl
        · simp [expand_k_wordE, expand_k_word, hk, hb, hma, idxE, bind,
            Except.bind, pure, Except.pure]
          all_goals (repeat' split) <;> rfl

theorem expand_n_wordE_ok (w : String) (rest : List String) :
    expand_n_wordE w rest = .ok (expand_n_word w rest) := by
  cases hn : nMatchStem w with
  | none => simp [expand_n_wordE, expand_n_word, hn]
  | some stem =>
    rcases rest with _ | ⟨n1, rest2⟩
    · simp [expand_n_wordE, expand_n_word, hn, pure, Except.pure]
    · simp [expand_n_wordE, expand_n_word, hn, idxE, bind, Except.bind,
        pure, Except.pure]

theorem expand_k_tokensE_ok :
    ∀ l, expand_k_tokensE l = .ok (expand_k_tokens l) := by
  intro l
  induction l with
  | nil => rfl
  | cons w rest ih =>
    simp [expand_k_tokensE, expand_k_tokens, expand_k_wordE_ok, ih, bind,
      Except.bind, pure, Except.pure]

theorem expand_n_tokensE_ok :
    ∀ l, expand_n_tokensE l = .ok (expand_n_tokens l) := by
  intro l
  induction l with
  | nil => rfl
  | cons w rest ih =>
    simp [expand_n_tokensE, expand_n_tokens, expand_n_wordE_ok, ih, bind,
      Except.bind, pure, Except.pure]

theorem expand_contractionsE_ok (text : String) :
    expand_contractionsE text = .ok (expand_contractions text) := by
  simp [expand_contractionsE, expand_contractions, expand_k_tokensE_ok,
    expand_n_tokensE_ok, bind, Except.bind, pure, Except.pure]

/-- Claim C9: totality of the pipeline.  Every lookahead access of the
contraction pass is guarded by a bounds test, so the exception-explicit
pipeline returns `.ok` of the pure pipeline for *every* configuration
and input (in particular when contraction handling and the
number/date/time/measurement expansions are disabled); boundary
lookahead falls back to the documented defaults (`ka` for a trailing
`k\x27`-contraction, `ni` for a trailing `n\x27`-contraction, `ka` for
an exhausted prediction) instead of raising. -/
theorem claim_C9_totality :
    (∀ cfg text,
      bambara_normalizeE cfg text = .ok (bambara_normalize cfg text)) ∧
    (∀ w stem, kMatchStem w = some stem →
      expand_k_word w [] = "ka " ++ stem) ∧
    (∀ w stem, nMatchStem w = some stem →
      expand_n_word w [] = "ni " ++ stem) ∧
    predict_k_expansion [] = "ka" := by
  refine ⟨?_, ?_, ?_, rfl⟩
  · intro cfg text
    by_cases he : text = ""
    · simp [bambara_normalizeE, bambara_normalize, he]
    · by_cases hc : cfg.expandContractions = true <;>
        simp [bambara_normalizeE, bambara_normalize, he, hc,
          expand_contractionsE_ok]
  · intro w stem hk
    simp [expand_k_word, hk]
  · intro w stem hn
    simp [expand_n_word, hn]

/-- Witness for claim C9 under the default configuration. -/
theorem claim_C9_witness :
    bambara_normalizeE defaultConfig "k\x27a" =
      .ok (bambara_normalize defaultConfig "k\x27a") ∧
    (kMatchStem "k\x27a" = some "a" ∧ expand_k_word "k\x27a" [] = "ka a") :=
  ⟨claim_C9_totality.1 defaultConfig "k\x27a",
    by decide, claim_C9_totality.2.1 "k\x27a" "a" (by decide)⟩

end Bambara
